import Mathlib

/-!
Verification of the photo auto-organization program (`main.py`) against its
natural-language specification.  The Python source is shallowly embedded:
file names are lists of characters, timestamps are integers (seconds),
directory listings are lists of entries, and the per-session control flow of
`_process_qr_trigger` is a pure function producing the ordered trace of the
actions it performs.  External fallible calls (EXIF extraction, the backup
copy loop, the relocation loop) are represented by their outcomes, so that
the exception-handling structure of the orchestrator can be analysed for
every possible outcome.
-/

namespace QrOrg

/-! ### Python string primitives used by the source -/

/-- Decimal digit character for a value below ten (used to embed Python's
`str(int)` / format-spec rendering). -/
def digChar : Nat → Char
  | 0 => '0' | 1 => '1' | 2 => '2' | 3 => '3' | 4 => '4'
  | 5 => '5' | 6 => '6' | 7 => '7' | 8 => '8' | 9 => '9'
  | _ => '?'

/-- Little-endian decimal digits of `n`, with structural fuel (the fuel is
always sufficient when it exceeds `n`, see `digitsLE_spec`). -/
def digitsLE : Nat → Nat → List Char
  | 0, _ => []
  | fuel + 1, n => if n < 10 then [digChar n] else digChar (n % 10) :: digitsLE fuel (n / 10)

/-- Embedding of Python's `str(n)` for a natural number: most-significant
digit first. -/
def natDigits (n : Nat) : List Char :=
  (digitsLE (n + 1) n).reverse

/-- Embedding of Python's `f"{n:03d}"`: decimal digits left-padded with `'0'`
to width three. -/
def pad3 (n : Nat) : List Char :=
  List.replicate (3 - (natDigits n).length) '0' ++ natDigits n

/-- Numeric value of a digit string, embedding Python's `int(s)` on strings
of decimal digits. -/
def parseNat (l : List Char) : Nat :=
  l.foldl (fun a c => a * 10 + (c.toNat - 48)) 0

/-- Embedding of Python's `str.isdigit` (ASCII digits): non-empty and all
characters decimal digits. -/
def pyIsDigits (l : List Char) : Bool :=
  !l.isEmpty && l.all (·.isDigit)

/-- Boolean test that `p` is an initial segment of `s` (Python's
`str.startswith`). -/
def isPre : List Char → List Char → Bool
  | [], _ => true
  | _ :: _, [] => false
  | a :: as, b :: bs => a == b && isPre as bs

/-- Split a name at its last `'.'`: returns the part before and the part
after the last dot, or `none` when no dot occurs.  This is the embedding of
`name.rfind('.')` as used by `pathlib` to compute `suffix` and `stem`. -/
def splitLastDot : List Char → Option (List Char × List Char)
  | [] => none
  | c :: t =>
    match splitLastDot t with
    | some (b, a) => some (c :: b, a)
    | none => if c = '.' then some ([], t) else none

/-- Embedding of `pathlib.PurePath.suffix` on a final path component:
`name[i:]` for `i = name.rfind('.')` when `0 < i < len(name) - 1`, else the
empty string. -/
def pySuffix (name : List Char) : List Char :=
  match splitLastDot name with
  | some (b, a) => if b ≠ [] ∧ a ≠ [] then '.' :: a else []
  | none => []

/-- Embedding of `pathlib.PurePath.stem` on a final path component:
`name[:i]` in the same good case as `pySuffix`, else the whole name. -/
def pyStem (name : List Char) : List Char :=
  match splitLastDot name with
  | some (b, a) => if b ≠ [] ∧ a ≠ [] then b else name
  | none => name

/-- Python whitespace test for `str.strip` (ASCII whitespace). -/
def pyIsSpace (c : Char) : Bool :=
  c.toNat = 32 || c.toNat = 9 || c.toNat = 10 || c.toNat = 11 || c.toNat = 12 || c.toNat = 13

/-- Embedding of Python's `str.strip()`: drop whitespace from both ends. -/
def pyStrip (l : List Char) : List Char :=
  ((l.dropWhile pyIsSpace).reverse.dropWhile pyIsSpace).reverse

/-- Enumeration of a list with indices starting at `n` (Python's
`enumerate`). -/
def withIdx : Nat → List α → List (Nat × α)
  | _, [] => []
  | n, a :: t => (n, a) :: withIdx (n + 1) t

/-! ### `parse_patient_id` -/

/-- The marker token `"PATIENT_ID:"` recognised by `parse_patient_id`. -/
def pidToken : List Char := "PATIENT_ID:".toList

/-- Left-to-right, non-overlapping removal of every occurrence of
`pidToken`, with structural fuel: the embedding of Python's
`qr_data.replace("PATIENT_ID:", "")`.  A step either removes one token
occurrence or keeps one character, so `s.length` fuel always suffices
(`removeTokF_fuel`). -/
def removeTokF : Nat → List Char → List Char
  | 0, s => s
  | _ + 1, [] => []
  | fuel + 1, c :: t =>
    if isPre pidToken (c :: t) then removeTokF fuel ((c :: t).drop pidToken.length)
    else c :: removeTokF fuel t

/-- Embedding of `qr_data.replace("PATIENT_ID:", "")`. -/
def removeTok (s : List Char) : List Char := removeTokF s.length s

/-- Does `pidToken` occur anywhere in `l` (at any position)? -/
def containsTok : List Char → Bool
  | [] => false
  | c :: t => isPre pidToken (c :: t) || containsTok t

/-- Embedding of `PhotoProcessor.parse_patient_id` (main.py lines 147-152):
if the payload starts with `"PATIENT_ID:"`, all occurrences of the token are
removed (Python `str.replace`) and the result stripped; otherwise the
payload is stripped. -/
def parse_patient_id (s : List Char) : List Char :=
  if isPre pidToken s then pyStrip (removeTok s) else pyStrip s

/-- The identifier extraction as the specification words it: strip the
token when it is a prefix and return the whitespace-trimmed remainder
unchanged.  Stated for comparison with `parse_patient_id`. -/
def parsePatientIdSpec (s : List Char) : List Char :=
  if isPre pidToken s then pyStrip (s.drop pidToken.length) else pyStrip s

/-! ### Timestamp resolution (`get_exif_date`, `get_image_timestamp`) -/

/-- Outcome of `datetime.strptime` on one EXIF tag value: a parsed
timestamp, or an exception for a malformed value. -/
inductive ExifVal where
  | ok (t : Int)
  | malformed
deriving DecidableEq, Repr

/-- Outcome of `Image.open(...)._getexif()` for one file: the call raised,
returned `None`, or returned a dictionary of (tag-name, raw value) items in
iteration order. -/
inductive ExifOutcome where
  | openFail
  | noData
  | data (items : List (String × ExifVal))
deriving DecidableEq, Repr

/-- First EXIF item whose tag name is `DateTimeOriginal` or `DateTime`
(the loop in `get_exif_date`, main.py lines 101-104). -/
def exifFind (items : List (String × ExifVal)) : Option (String × ExifVal) :=
  items.find? fun it => it.1 == "DateTimeOriginal" || it.1 == "DateTime"

/-- Embedding of `PhotoProcessor.get_exif_date` (main.py lines 92-109): any
raised exception (unreadable image, malformed date value) is caught and
yields `none`; absent data or an absent date tag also yields `none`. -/
def get_exif_date : ExifOutcome → Option Int
  | .openFail => none
  | .noData => none
  | .data items =>
    match exifFind items with
    | some (_, .ok t) => some t
    | some (_, .malformed) => none
    | none => none

/-- A direct entry of the watch folder as seen by one scan: its final name,
whether it is a regular file, the identity of its resolved path (two
entries alias the same file iff their `resolved` values coincide), the
outcome of EXIF extraction on it, and its file-modification time. -/
structure FSEntry where
  name : List Char
  isFile : Bool
  resolved : Nat
  exifo : ExifOutcome
  mtime : Int
deriving DecidableEq, Repr

/-- Embedding of `PhotoProcessor.get_image_timestamp` (main.py lines
111-119): the EXIF date when extraction succeeds, else the file's
modification time. -/
def get_image_timestamp (e : FSEntry) : Int :=
  match get_exif_date e.exifo with
  | some t => t
  | none => e.mtime

/-! ### Path classification and the session collector -/

/-- Configuration fields consumed by the embedded code
(`max_photos_per_session`, `max_minutes_window`, `stop_on_error`,
`supported_formats`). -/
structure Config where
  maxPhotos : Nat
  windowMinutes : Nat
  stopOnError : Bool
  formats : List (List Char)
deriving DecidableEq, Repr

/-- Embedding of `PhotoProcessor._should_skip_path` (main.py lines
154-160): the final name starts with `'_'` or `'.'`. -/
def should_skip_path (name : List Char) : Bool :=
  match name with
  | [] => false
  | c :: _ => c == '_' || c == '.'

/-- Embedding of `PhotoProcessor.is_image_file` (main.py lines 88-90): the
lower-cased suffix is a member of the lower-cased configured format set. -/
def is_image_file (cfg : Config) (name : List Char) : Bool :=
  ((pySuffix name).map Char.toLower) ∈ cfg.formats.map (fun f => f.map Char.toLower)

/-- The filter applied to each directory entry by
`_collect_qualifying_photos` (main.py lines 171-183): regular file, not a
reserved/hidden name, supported format, resolved path different from the
trigger's, and resolved timestamp inside `[trigger - window, trigger]`.
The window is `max_minutes_window` minutes, i.e. `60 *` that many
seconds. -/
def qualifies (cfg : Config) (qrTs : Int) (qrResolved : Nat) (e : FSEntry) : Bool :=
  e.isFile && !should_skip_path e.name && is_image_file cfg e.name
    && e.resolved != qrResolved
    && decide (qrTs - 60 * (cfg.windowMinutes : Int) ≤ get_image_timestamp e)
    && decide (get_image_timestamp e ≤ qrTs)

/-- The `(timestamp, file)` pairs appended by the collection loop, in
directory enumeration order. -/
def qualifyingPairs (cfg : Config) (watch : List FSEntry) (qrTs : Int) (qrResolved : Nat) :
    List (Int × FSEntry) :=
  watch.filterMap fun e =>
    if qualifies cfg qrTs qrResolved e then some (get_image_timestamp e, e) else none

/-- Comparison used by `qualifying.sort(key=lambda item: item[0])`: the
timestamp component only. -/
def tsLE (a b : Int × FSEntry) : Prop := a.1 ≤ b.1

instance : DecidableRel tsLE := fun a b => inferInstanceAs (Decidable (a.1 ≤ b.1))

instance : IsTotal (Int × FSEntry) tsLE := ⟨fun a b => Int.le_total a.1 b.1⟩

instance : IsTrans (Int × FSEntry) tsLE := ⟨fun _ _ _ h h' => le_trans h h'⟩

/-- Embedding of `PhotoProcessor._collect_qualifying_photos` (main.py lines
162-186): filter the watch-folder listing, sort stably by timestamp
(Python's `list.sort` is a stable sort, modelled by insertion sort), and
drop the timestamps. -/
def collect_qualifying_photos (cfg : Config) (watch : List FSEntry) (qrTs : Int)
    (qrResolved : Nat) : List FSEntry :=
  (List.insertionSort tsLE (qualifyingPairs cfg watch qrTs qrResolved)).map Prod.snd

/-! ### `organize_photos`: destination numbering and the QR name probe -/

/-- An entry of the destination folder: its final name and whether it is a
regular file (`f.is_file()` in the numbering scan; directories also satisfy
`Path.exists()` in the collision probe). -/
structure DirEnt where
  name : List Char
  isFile : Bool
deriving DecidableEq, Repr

/-- Embedding of the `existing_nums` scan of `organize_photos` (main.py
lines 263-267): the integer values of the purely-numeric stems of the
regular files already in the destination folder. -/
def existing_nums (dest : List DirEnt) : List Nat :=
  dest.filterMap fun e =>
    if e.isFile && pyIsDigits (pyStem e.name) then some (parseNat (pyStem e.name)) else none

/-- Embedding of `seq_start = max(existing_nums, default=0) + 1` (main.py
line 268). -/
def seq_start (dest : List DirEnt) : Nat :=
  (existing_nums dest).foldl max 0 + 1

/-- Destination names assigned to the session members in collected order
(main.py lines 270-273): `f"{seq_start + i:03d}{photo.suffix}"`. -/
def member_dest_names (dest : List DirEnt) (photos : List (List Char)) : List (List Char) :=
  (withIdx 0 photos).map fun p => pad3 (seq_start dest + p.1) ++ pySuffix p.2

/-- The names present in the destination folder at the moment the trigger
photo is moved: every pre-existing entry plus the just-moved members. -/
def dest_after_members (dest : List DirEnt) (photos : List (List Char)) : List (List Char) :=
  dest.map (·.name) ++ member_dest_names dest photos

/-- The preferred trigger destination name `f"QR_{patient_id}{suffix}"`
(main.py line 279), also the backup name of the trigger photo. -/
def qr_base_name (pid qrName : List Char) : List Char :=
  "QR_".toList ++ pid ++ pySuffix qrName

/-- A probed trigger destination name
`f"QR_{patient_id}_{counter}{suffix}"` (main.py line 284). -/
def qr_probe_name (pid qrName : List Char) (n : Nat) : List Char :=
  "QR_".toList ++ pid ++ "_".toList ++ natDigits n ++ pySuffix qrName

/-- The collision-resolution loop of main.py lines 281-285, with structural
fuel: starting at counter `k`, return the first probed name not present in
`names`.  `names.length + 1` fuel always suffices (`probeAux_spec` together
with `exists_probe_free`). -/
def probeAux (names : List (List Char)) (pid qrName : List Char) : Nat → Nat → List Char
  | 0, k => qr_probe_name pid qrName k
  | fuel + 1, k =>
    if qr_probe_name pid qrName k ∈ names then probeAux names pid qrName fuel (k + 1)
    else qr_probe_name pid qrName k

/-- The final name the trigger photo is moved to (main.py lines 279-286):
the base `QR_` name when free, otherwise the first probed name that is
free. -/
def qr_dest_name (dest : List DirEnt) (photos : List (List Char)) (pid qrName : List Char) :
    List Char :=
  if qr_base_name pid qrName ∈ dest_after_members dest photos then
    probeAux (dest_after_members dest photos) pid qrName
      ((dest_after_members dest photos).length + 1) 1
  else qr_base_name pid qrName

/-- Embedding of `PhotoProcessor.organize_photos` (main.py lines 250-290)
at the level of the names it writes: the member destination names in
collected order, the trigger destination name, and the returned
`moved_count`. -/
def organize_photos (pid : List Char) (photos : List (List Char)) (qrName : List Char)
    (dest : List DirEnt) : List (List Char) × List Char × Nat :=
  (member_dest_names dest photos, qr_dest_name dest photos pid qrName, photos.length + 1)

/-! ### `_create_backup` -/

/-- The ordered backup copy destinations of `_create_backup` (main.py lines
192-217): each member under `f"{i + 1:03d}{photo.suffix}"` in collected
order, then the trigger photo under `f"QR_{patient_id}{suffix}"`. -/
def backup_names (photos : List (List Char)) (qrName pid : List Char) : List (List Char) :=
  ((withIdx 0 photos).map fun p => pad3 (p.1 + 1) ++ pySuffix p.2) ++ [qr_base_name pid qrName]

/-- Effect of one `shutil.copy2` (or `shutil.move`) on the set of names
present in a folder: the destination name becomes present; copying over an
existing name overwrites it and adds no entry. -/
def addFile (d : List (List Char)) (n : List Char) : List (List Char) :=
  if n ∈ d then d else d ++ [n]

/-- The names present in the backup folder `_backup/{session_id}/` after
`_create_backup` runs, given the names present when it starts
(`mkdir(parents=True, exist_ok=True)` keeps any existing contents). -/
def create_backup (initial : List (List Char)) (photos : List (List Char))
    (qrName pid : List Char) : List (List Char) :=
  (backup_names photos qrName pid).foldl addFile initial

/-! ### The session orchestrator `_process_qr_trigger` -/

/-- An exception value (`type(e).__name__` and `str(e)`). -/
structure PyExn where
  kind : String
  msg : String
deriving DecidableEq, Repr

/-- One observable action of a session attempt, in execution order:
invoking the backup step, invoking the relocation step, writing an
`_error/` record with its context string, writing a `_done/` record with
the moved-file count. -/
inductive Act where
  | runBackup
  | runOrganize
  | recError (ctx : String)
  | recDone (count : Nat)
deriving DecidableEq, Repr

/-- Is this action the write of a terminal (`_done/` or `_error/`)
record? -/
def Act.isRecord : Act → Bool
  | .recError _ => true
  | .recDone _ => true
  | _ => false

/-- One trigger photo reaching `process_images`: whether the path still
exists, the detected identifier (`None` for no/failed detection, the empty
identifier is falsy in `if patient_id:`), the watch-folder listing seen by
the collector, the trigger's timestamp and resolved path, and the outcomes
of the two fallible side-effecting steps were they to run. -/
structure SessionInput where
  stillExists : Bool
  detect : Option (List Char)
  watch : List FSEntry
  qrTs : Int
  qrResolved : Nat
  backupRes : Except PyExn Unit
  organizeRes : Except PyExn Nat
deriving Repr

/-- Error context written by the limit check (main.py line 315). -/
def maxPhotosCtx : String := "Max photos per session exceeded"

/-- Error context written by the session-boundary handler (main.py line
338). -/
def sessionFailCtx : String := "Session processing failed"

/-- Embedding of `PhotoProcessor._process_qr_trigger` (main.py lines
292-344): collect; if the count exceeds the limit, write one error record
and return with no file step invoked; otherwise run backup then relocation,
catching any exception at the session boundary into one error record (and,
when `stop_on_error` is configured, a stop request); on success write one
done record.  Returns the ordered action trace and the final value of
`stop_requested` given its value `stop0` on entry. -/
def process_qr_trigger (cfg : Config) (s : SessionInput) (stop0 : Bool) : List Act × Bool :=
  let q := collect_qualifying_photos cfg s.watch s.qrTs s.qrResolved
  if q.length > cfg.maxPhotos then
    ([.recError maxPhotosCtx], stop0)
  else
    match s.backupRes with
    | .error _ => ([.runBackup, .recError sessionFailCtx], stop0 || cfg.stopOnError)
    | .ok _ =>
      match s.organizeRes with
      | .error _ =>
        ([.runBackup, .runOrganize, .recError sessionFailCtx], stop0 || cfg.stopOnError)
      | .ok n => ([.runBackup, .runOrganize, .recDone n], stop0)

/-- Embedding of `PhotoProcessor.process_images` (main.py lines 346-358):
each image in turn is skipped when it no longer exists or no identifier is
detected (the empty identifier string is falsy), and otherwise processed as
a trigger; the loop never stops early. -/
def process_images (cfg : Config) : List SessionInput → Bool → List Act × Bool
  | [], stop0 => ([], stop0)
  | s :: rest, stop0 =>
    if s.stillExists = false then process_images cfg rest stop0
    else
      match s.detect with
      | none => process_images cfg rest stop0
      | some pid =>
        if pid = [] then process_images cfg rest stop0
        else
          let (ev, st1) := process_qr_trigger cfg s stop0
          let (evr, st2) := process_images cfg rest st1
          (ev ++ evr, st2)

/-! ### Lemmas about decimal rendering -/

theorem digChar_toNat {n : Nat} (h : n < 10) : (digChar n).toNat = 48 + n := by
  interval_cases n <;> rfl

theorem digChar_isDigit {n : Nat} (h : n < 10) : (digChar n).isDigit = true := by
  interval_cases n <;> rfl

theorem isDigit_ne_dot {c : Char} (h : c.isDigit = true) : c ≠ '.' := by
  intro hc
  subst hc
  simp at h

/-- Value of a little-endian-reversed digit list under `parseNat`'s fold
step, as a fold from the right. -/
def valLE (l : List Char) : Nat :=
  l.foldr (fun c a => a * 10 + (c.toNat - 48)) 0

theorem digitsLE_spec :
    ∀ fuel n, n < fuel →
      digitsLE fuel n ≠ [] ∧ (∀ c ∈ digitsLE fuel n, c.isDigit = true) ∧
        valLE (digitsLE fuel n) = n := by
  intro fuel
  induction fuel with
  | zero => intro n h; omega
  | succ fuel ih =>
    intro n h
    by_cases h10 : n < 10
    · refine ⟨by simp [digitsLE, h10], ?_, ?_⟩
      · intro c hc
        simp [digitsLE, h10] at hc
        subst hc
        exact digChar_isDigit h10
      · simp [digitsLE, h10, valLE, digChar_toNat h10]
    · have hdiv : n / 10 < fuel := by
        have : n / 10 < n := Nat.div_lt_self (by omega) (by omega)
        omega
      obtain ⟨hne, hdig, hval⟩ := ih (n / 10) hdiv
      refine ⟨by simp [digitsLE, h10], ?_, ?_⟩
      · intro c hc
        simp only [digitsLE, if_neg h10, List.mem_cons] at hc
        rcases hc with hc | hc
        · subst hc; exact digChar_isDigit (Nat.mod_lt _ (by omega))
        · exact hdig c hc
      · simp only [digitsLE, if_neg h10, valLE, List.foldr_cons]
        have : valLE (digitsLE fuel (n / 10)) = n / 10 := hval
        rw [valLE] at this
        rw [this, digChar_toNat (Nat.mod_lt _ (by omega))]
        omega

theorem natDigits_ne_nil (n : Nat) : natDigits n ≠ [] := by
  have h := (digitsLE_spec (n + 1) n (by omega)).1
  simp [natDigits]
  intro hc
  exact h hc

theorem natDigits_all_digit {n : Nat} {c : Char} (hc : c ∈ natDigits n) : c.isDigit = true := by
  have h := (digitsLE_spec (n + 1) n (by omega)).2.1
  rw [natDigits, List.mem_reverse] at hc
  exact h c hc

theorem parseNat_natDigits (n : Nat) : parseNat (natDigits n) = n := by
  have h := (digitsLE_spec (n + 1) n (by omega)).2.2
  rw [natDigits, parseNat, List.foldl_reverse]
  exact h

theorem parseNat_replicate_zero (k : Nat) (l : List Char) :
    parseNat (List.replicate k '0' ++ l) = parseNat l := by
  induction k with
  | zero => simp
  | succ k ih =>
    rw [List.replicate_succ, List.cons_append, parseNat, List.foldl_cons]
    have : (0 * 10 + ('0'.toNat - 48)) = 0 := by decide
    rw [this]
    exact ih

theorem pad3_ne_nil (n : Nat) : pad3 n ≠ [] := by
  rw [pad3]
  intro h
  rcases List.append_eq_nil.mp h with ⟨_, h2⟩
  exact natDigits_ne_nil n h2

theorem pad3_all_digit {n : Nat} {c : Char} (hc : c ∈ pad3 n) : c.isDigit = true := by
  rw [pad3, List.mem_append] at hc
  rcases hc with hc | hc
  · have := List.eq_of_mem_replicate hc
    subst this; rfl
  · exact natDigits_all_digit hc

theorem pad3_no_dot {n : Nat} : '.' ∉ pad3 n := by
  intro hc
  exact isDigit_ne_dot (pad3_all_digit hc) rfl

theorem parseNat_pad3 (n : Nat) : parseNat (pad3 n) = n := by
  rw [pad3, parseNat_replicate_zero, parseNat_natDigits]

theorem pad3_head_not_Q {n : Nat} {t : List Char} : pad3 n ≠ 'Q' :: t := by
  intro h
  have : 'Q' ∈ pad3 n := by rw [h]; exact List.mem_cons_self _ _
  have := pad3_all_digit this
  simp at this

/-! ### Lemmas about `splitLastDot`, `pySuffix` and `pyStem` -/

theorem splitLastDot_eq_none {l : List Char} : splitLastDot l = none ↔ '.' ∉ l := by
  induction l with
  | nil => simp [splitLastDot]
  | cons c t ih =>
    constructor
    · intro h hmem
      rw [splitLastDot] at h
      cases ht : splitLastDot t with
      | some q => rw [ht] at h; cases h
      | none =>
        rw [ht] at h
        by_cases hc : c = '.'
        · simp [hc] at h
        · rcases List.mem_cons.mp hmem with he | hm
          · exact hc he.symm
          · exact (ih.mp ht) hm
    · intro hmem
      have hnt : '.' ∉ t := fun hm => hmem (List.mem_cons_of_mem _ hm)
      have hc : ¬(c = '.') := fun he => hmem (by rw [he]; exact List.mem_cons_self _ _)
      rw [splitLastDot, ih.mpr hnt]
      simp [hc]

theorem splitLastDot_sound {l b a : List Char} (h : splitLastDot l = some (b, a)) :
    l = b ++ '.' :: a ∧ '.' ∉ a := by
  induction l generalizing b a with
  | nil => simp [splitLastDot] at h
  | cons c t ih =>
    rw [splitLastDot] at h
    cases ht : splitLastDot t with
    | some q =>
      obtain ⟨b', a'⟩ := q
      rw [ht] at h
      simp only [Option.some.injEq, Prod.mk.injEq] at h
      obtain ⟨hcb, haa⟩ := h
      obtain ⟨he, hna⟩ := ih ht
      subst haa
      rw [← hcb, he]
      exact ⟨rfl, hna⟩
    | none =>
      rw [ht] at h
      by_cases hc : c = '.'
      · rw [if_pos hc] at h
        simp only [Option.some.injEq, Prod.mk.injEq] at h
        obtain ⟨hb, ha⟩ := h
        subst ha
        rw [← hb, hc]
        exact ⟨rfl, splitLastDot_eq_none.mp ht⟩
      · rw [if_neg hc] at h
        cases h

theorem splitLastDot_append {b a : List Char} (ha : '.' ∉ a) :
    splitLastDot (b ++ '.' :: a) = some (b, a) := by
  induction b with
  | nil =>
    rw [List.nil_append, splitLastDot, splitLastDot_eq_none.mpr ha]
    simp
  | cons c t ih =>
    rw [List.cons_append, splitLastDot, ih]

theorem pySuffix_shape (nm : List Char) :
    pySuffix nm = [] ∨ ∃ a, pySuffix nm = '.' :: a ∧ a ≠ [] ∧ '.' ∉ a := by
  rw [pySuffix]
  cases h : splitLastDot nm with
  | none => exact Or.inl rfl
  | some p =>
    obtain ⟨b, a⟩ := p
    by_cases hba : b ≠ [] ∧ a ≠ []
    · right
      exact ⟨a, by simp [hba], hba.2, (splitLastDot_sound h).2⟩
    · left; simp [hba]

theorem pyStem_pad_append {pad : List Char} (hne : pad ≠ []) (hnd : '.' ∉ pad)
    (nm : List Char) : pyStem (pad ++ pySuffix nm) = pad := by
  rcases pySuffix_shape nm with h | ⟨a, h, hane, hand⟩
  · rw [h, List.append_nil, pyStem, splitLastDot_eq_none.mpr hnd]
  · rw [h, pyStem, splitLastDot_append hand]
    simp [hne, hane]

theorem pyStem_pad3 (n : Nat) (nm : List Char) :
    pyStem (pad3 n ++ pySuffix nm) = pad3 n :=
  pyStem_pad_append (pad3_ne_nil n) pad3_no_dot nm

theorem pyIsDigits_pad3 (n : Nat) : pyIsDigits (pad3 n) = true := by
  rw [pyIsDigits]
  have h1 : (pad3 n).isEmpty = false := by
    cases h : pad3 n with
    | nil => exact absurd h (pad3_ne_nil n)
    | cons c t => rfl
  rw [h1]
  simp only [Bool.not_false, Bool.true_and, List.all_eq_true]
  intro c hc
  simpa using pad3_all_digit hc

theorem pad3_inj {n m : Nat} (h : pad3 n = pad3 m) : n = m := by
  have := congrArg parseNat h
  rwa [parseNat_pad3, parseNat_pad3] at this

/-! ### Lemmas about `List.foldl max` (the `max(..., default=0)` idiom) -/

theorem le_foldl_max (l : List Nat) (a : Nat) : a ≤ l.foldl max a := by
  induction l generalizing a with
  | nil => exact Nat.le_refl a
  | cons x t ih => exact le_trans (Nat.le_max_left a x) (ih (max a x))

theorem mem_le_foldl_max {l : List Nat} {x : Nat} (hx : x ∈ l) (a : Nat) :
    x ≤ l.foldl max a := by
  induction l generalizing a with
  | nil => cases hx
  | cons y t ih =>
    rcases List.mem_cons.mp hx with he | hm
    · subst he
      exact le_trans (Nat.le_max_right a x) (le_foldl_max t _)
    · exact ih hm (max a y)

theorem foldl_max_mem (l : List Nat) (a : Nat) : l.foldl max a = a ∨ l.foldl max a ∈ l := by
  induction l generalizing a with
  | nil => exact Or.inl rfl
  | cons x t ih =>
    rcases ih (max a x) with h | h
    · rw [List.foldl_cons, h]
      rcases max_choice a x with hm | hm
      · exact Or.inl hm
      · exact Or.inr (by rw [hm]; exact List.mem_cons_self _ _)
    · exact Or.inr (List.mem_cons_of_mem _ h)

/-! ### Lemmas about `isPre` and token removal -/

theorem isPre_iff {p s : List Char} : isPre p s = true ↔ ∃ r, s = p ++ r := by
  induction p generalizing s with
  | nil => simp [isPre]
  | cons a as ih =>
    cases s with
    | nil =>
      constructor
      · intro h; exact absurd h (by simp [isPre])
      · rintro ⟨r, hr⟩
        exact (List.cons_ne_nil _ _ hr.symm).elim
    | cons b bs =>
      rw [isPre, Bool.and_eq_true, beq_iff_eq, ih]
      constructor
      · rintro ⟨he, r, hr⟩
        exact ⟨r, by rw [← he, hr, List.cons_append]⟩
      · rintro ⟨r, hr⟩
        rw [List.cons_append] at hr
        cases hr
        exact ⟨rfl, r, rfl⟩

theorem isPre_append (p r : List Char) : isPre p (p ++ r) = true :=
  isPre_iff.mpr ⟨r, rfl⟩

theorem removeTokF_of_not_contains {l : List Char} (h : containsTok l = false) :
    ∀ fuel, removeTokF fuel l = l := by
  induction l with
  | nil => intro fuel; cases fuel <;> rfl
  | cons c t ih =>
    intro fuel
    rw [containsTok, Bool.or_eq_false_iff] at h
    cases fuel with
    | zero => rfl
    | succ fuel =>
      rw [removeTokF, if_neg (by rw [h.1]; exact Bool.false_ne_true), ih h.2]

theorem removeTokF_congr :
    ∀ f1 f2 (l : List Char), l.length ≤ f1 → l.length ≤ f2 →
      removeTokF f1 l = removeTokF f2 l := by
  intro f1
  induction f1 with
  | zero =>
    intro f2 l h1 _
    have : l = [] := List.length_eq_zero.mp (Nat.le_zero.mp h1)
    subst this
    cases f2 <;> rfl
  | succ f1 ih =>
    intro f2 l h1 h2
    cases l with
    | nil => cases f2 <;> rfl
    | cons c t =>
      cases f2 with
      | zero => simp at h2
      | succ f2 =>
        rw [removeTokF, removeTokF]
        by_cases hp : isPre pidToken (c :: t) = true
        · rw [if_pos hp, if_pos hp]
          have hp11 : pidToken.length = 11 := rfl
          have hlen : ((c :: t).drop pidToken.length).length ≤ f1 := by
            rw [List.length_drop]
            simp only [List.length_cons] at h1 ⊢
            omega
          have hlen2 : ((c :: t).drop pidToken.length).length ≤ f2 := by
            rw [List.length_drop]
            simp only [List.length_cons] at h2 ⊢
            omega
          exact ih f2 _ hlen hlen2
        · rw [if_neg hp, if_neg hp]
          have hlt : t.length ≤ f1 := by simp at h1; omega
          have hlt2 : t.length ≤ f2 := by simp at h2; omega
          rw [ih f2 t hlt hlt2]

theorem removeTokF_succ_of_isPre {fuel : Nat} {s : List Char}
    (h : isPre pidToken s = true) :
    removeTokF (fuel + 1) s = removeTokF fuel (s.drop pidToken.length) := by
  obtain ⟨r, hr⟩ := isPre_iff.mp h
  subst hr
  have hcons : pidToken ++ r = 'P' :: ("ATIENT_ID:".toList ++ r) := rfl
  rw [hcons, removeTokF, if_pos (by rw [← hcons]; exact isPre_append pidToken r), ← hcons]

theorem removeTok_token_prefix (r : List Char) :
    removeTok (pidToken ++ r) = removeTok r := by
  have hlen : (pidToken ++ r).length = r.length + 10 + 1 := by
    rw [List.length_append]
    have hp11 : pidToken.length = 11 := rfl
    omega
  rw [removeTok, hlen, removeTokF_succ_of_isPre (isPre_append pidToken r), List.drop_left,
    removeTok]
  exact removeTokF_congr (r.length + 10) r.length r (by omega) (le_refl _)

/-! ### Lemmas about `withIdx` -/

theorem withIdx_map_snd (n : Nat) (l : List α) : (withIdx n l).map Prod.snd = l := by
  induction l generalizing n with
  | nil => rfl
  | cons a t ih => rw [withIdx, List.map_cons, ih]

theorem mem_withIdx_le {n : Nat} {l : List α} {p : Nat × α} (hp : p ∈ withIdx n l) :
    n ≤ p.1 := by
  induction l generalizing n with
  | nil => cases hp
  | cons a t ih =>
    rcases List.mem_cons.mp hp with he | hm
    · subst he; exact le_refl n
    · exact le_trans (Nat.le_succ n) (ih hm)

theorem pairwise_withIdx (n : Nat) (l : List α) :
    (withIdx n l).Pairwise (fun x y => x.1 < y.1) := by
  induction l generalizing n with
  | nil => exact List.Pairwise.nil
  | cons a t ih =>
    rw [withIdx]
    exact List.Pairwise.cons (fun p hp => lt_of_lt_of_le (Nat.lt_succ_self n) (mem_withIdx_le hp))
      (ih (n + 1))

theorem withIdx_length (n : Nat) (l : List α) : (withIdx n l).length = l.length := by
  induction l generalizing n with
  | nil => rfl
  | cons a t ih => rw [withIdx, List.length_cons, List.length_cons, ih]

theorem withIdx_get {n : Nat} {l : List α} (i : Nat) (hi : i < l.length) :
    (withIdx n l).get ⟨i, by rw [withIdx_length]; exact hi⟩ = (n + i, l.get ⟨i, hi⟩) := by
  induction l generalizing n i with
  | nil => cases hi
  | cons a t ih =>
    cases i with
    | zero => simp [withIdx]
    | succ i =>
      have hi' : i < t.length := by simpa using hi
      have := @ih (n + 1) i hi'
      simpa [withIdx, Nat.add_assoc, Nat.add_comm 1 i] using this

theorem mem_withIdx_iff {n : Nat} {l : List α} {p : Nat × α} :
    p ∈ withIdx n l ↔ ∃ i, ∃ hi : i < l.length, p = (n + i, l.get ⟨i, hi⟩) := by
  induction l generalizing n with
  | nil => simp [withIdx]
  | cons a t ih =>
    rw [withIdx, List.mem_cons, ih]
    constructor
    · rintro (he | ⟨i, hi, he⟩)
      · exact ⟨0, by simp, by simpa using he⟩
      · exact ⟨i + 1, by simpa using hi, by simpa [Nat.add_comm, Nat.add_assoc,
          Nat.add_left_comm] using he⟩
    · rintro ⟨i, hi, he⟩
      cases i with
      | zero => exact Or.inl (by simpa using he)
      | succ i =>
        right
        exact ⟨i, by simpa using hi, by simpa [Nat.add_comm, Nat.add_assoc,
          Nat.add_left_comm] using he⟩

/-! ### Stability of the timestamp sort -/

/-- The timestamp comparison lifted to index-tagged pairs: exactly what
Python's `sort(key=lambda item: item[0])` compares, ignoring positions. -/
def tsLEIdx (a b : Nat × (Int × FSEntry)) : Prop := a.2.1 ≤ b.2.1

instance : DecidableRel tsLEIdx := fun a b => inferInstanceAs (Decidable (a.2.1 ≤ b.2.1))

/-- The lexicographic order on (timestamp, original enumeration index): the
specification's description of the output order — ascending timestamp with
ties broken by enumeration position, nothing else. -/
def lexLE (a b : Nat × (Int × FSEntry)) : Prop :=
  a.2.1 < b.2.1 ∨ (a.2.1 = b.2.1 ∧ a.1 ≤ b.1)

instance : DecidableRel lexLE := fun a b =>
  inferInstanceAs (Decidable (a.2.1 < b.2.1 ∨ (a.2.1 = b.2.1 ∧ a.1 ≤ b.1)))

theorem orderedInsert_map_snd (a : Nat × (Int × FSEntry)) (s : List (Nat × (Int × FSEntry))) :
    (List.orderedInsert tsLEIdx a s).map Prod.snd
      = List.orderedInsert tsLE a.2 (s.map Prod.snd) := by
  induction s with
  | nil => rfl
  | cons b t ih =>
    by_cases h : tsLEIdx a b
    · rw [List.orderedInsert, if_pos h, List.map_cons, List.map_cons,
        List.orderedInsert, if_pos (show tsLE a.2 b.2 from h)]
    · rw [List.orderedInsert, if_neg h, List.map_cons, List.map_cons, List.orderedInsert,
        if_neg (show ¬tsLE a.2 b.2 from h), ih]

theorem insertionSort_map_snd (l : List (Nat × (Int × FSEntry))) :
    (List.insertionSort tsLEIdx l).map Prod.snd = List.insertionSort tsLE (l.map Prod.snd) := by
  induction l with
  | nil => rfl
  | cons a t ih =>
    rw [List.insertionSort, List.map_cons, List.insertionSort, orderedInsert_map_snd, ih]

theorem orderedInsert_ts_eq_lex (a : Nat × (Int × FSEntry))
    (s : List (Nat × (Int × FSEntry))) (hlt : ∀ b ∈ s, a.1 < b.1) :
    List.orderedInsert tsLEIdx a s = List.orderedInsert lexLE a s := by
  induction s with
  | nil => rfl
  | cons b t ih =>
    have hab : a.1 < b.1 := hlt b (List.mem_cons_self _ _)
    by_cases h : tsLEIdx a b
    · have hlex : lexLE a b := by
        rcases lt_or_eq_of_le h with h' | h'
        · exact Or.inl h'
        · exact Or.inr ⟨h', le_of_lt hab⟩
      rw [List.orderedInsert, if_pos h, List.orderedInsert, if_pos hlex]
    · have hlex : ¬lexLE a b := by
        rintro (h' | ⟨h', _⟩)
        · exact h (le_of_lt h')
        · exact h (le_of_eq h')
      rw [List.orderedInsert, if_neg h, List.orderedInsert, if_neg hlex,
        ih fun c hc => hlt c (List.mem_cons_of_mem _ hc)]

theorem insertionSort_ts_eq_lex (l : List (Nat × (Int × FSEntry)))
    (hpw : l.Pairwise (fun x y => x.1 < y.1)) :
    List.insertionSort tsLEIdx l = List.insertionSort lexLE l := by
  induction l with
  | nil => rfl
  | cons a t ih =>
    rw [List.pairwise_cons] at hpw
    rw [List.insertionSort, List.insertionSort, ih hpw.2, orderedInsert_ts_eq_lex]
    intro b hb
    exact hpw.1 b ((List.perm_insertionSort lexLE t).mem_iff.mp hb)

/-- The specification-level stable sort: tag each qualifying pair with its
enumeration index, sort by (timestamp, index) lexicographically, drop the
tags. -/
def specStableSort (pairs : List (Int × FSEntry)) : List (Int × FSEntry) :=
  (List.insertionSort lexLE (withIdx 0 pairs)).map Prod.snd

theorem insertionSort_ts_eq_specStableSort (pairs : List (Int × FSEntry)) :
    List.insertionSort tsLE pairs = specStableSort pairs := by
  rw [specStableSort, ← insertionSort_ts_eq_lex _ (pairwise_withIdx 0 pairs),
    insertionSort_map_snd, withIdx_map_snd]

/-! ### Membership in the collector output -/

theorem qualifies_iff {cfg : Config} {qrTs : Int} {qrRes : Nat} {e : FSEntry} :
    qualifies cfg qrTs qrRes e = true ↔
      e.isFile = true ∧ should_skip_path e.name = false ∧ is_image_file cfg e.name = true ∧
        e.resolved ≠ qrRes ∧ qrTs - 60 * (cfg.windowMinutes : Int) ≤ get_image_timestamp e ∧
        get_image_timestamp e ≤ qrTs := by
  rw [qualifies]
  simp only [Bool.and_eq_true, decide_eq_true_eq, bne_iff_ne, Bool.not_eq_true']
  tauto

theorem mem_collect_iff {cfg : Config} {watch : List FSEntry} {qrTs : Int} {qrRes : Nat}
    {f : FSEntry} :
    f ∈ collect_qualifying_photos cfg watch qrTs qrRes ↔
      f ∈ watch ∧ qualifies cfg qrTs qrRes f = true := by
  rw [collect_qualifying_photos, List.mem_map]
  constructor
  · rintro ⟨p, hp, he⟩
    rw [(List.perm_insertionSort tsLE _).mem_iff, qualifyingPairs, List.mem_filterMap] at hp
    obtain ⟨e, he', hq⟩ := hp
    by_cases hqe : qualifies cfg qrTs qrRes e = true
    · rw [if_pos hqe] at hq
      cases hq
      rw [← he]
      exact ⟨he', hqe⟩
    · rw [if_neg hqe] at hq
      cases hq
  · rintro ⟨hw, hq⟩
    refine ⟨(get_image_timestamp f, f), ?_, rfl⟩
    rw [(List.perm_insertionSort tsLE _).mem_iff, qualifyingPairs, List.mem_filterMap]
    exact ⟨f, hw, by rw [if_pos hq]⟩

/-! ### The QR-name probe -/

theorem qr_base_name_cons (pid qrName : List Char) :
    qr_base_name pid qrName = 'Q' :: ('R' :: '_' :: (pid ++ pySuffix qrName)) := rfl

theorem qr_probe_name_cons (pid qrName : List Char) (n : Nat) :
    qr_probe_name pid qrName n
      = 'Q' :: ('R' :: '_' :: (pid ++ ('_' :: (natDigits n ++ pySuffix qrName)))) := by
  rw [qr_probe_name]
  simp only [List.append_assoc]
  rfl

theorem qr_probe_name_inj {pid qrName : List Char} {n m : Nat}
    (h : qr_probe_name pid qrName n = qr_probe_name pid qrName m) : n = m := by
  rw [qr_probe_name_cons, qr_probe_name_cons] at h
  simp only [List.cons.injEq, true_and] at h
  have h1 := List.append_cancel_left h
  simp only [List.cons.injEq, true_and] at h1
  have h2 := List.append_cancel_right h1
  have := congrArg parseNat h2
  rwa [parseNat_natDigits, parseNat_natDigits] at this

theorem exists_probe_free (names : List (List Char)) (pid qrName : List Char) (k : Nat) :
    ∃ m, k ≤ m ∧ m < k + names.length + 1 ∧ qr_probe_name pid qrName m ∉ names := by
  by_contra hall
  push_neg at hall
  have hsub : ∀ i : Fin (names.length + 1), qr_probe_name pid qrName (k + i.1) ∈ names :=
    fun i => hall _ (Nat.le_add_right k i.1) (by omega)
  have himg : Finset.image
      (fun i : Fin (names.length + 1) => qr_probe_name pid qrName (k + i.1))
      Finset.univ ⊆ names.toFinset := by
    intro x hx
    rw [Finset.mem_image] at hx
    obtain ⟨i, _, he⟩ := hx
    exact List.mem_toFinset.mpr (he ▸ hsub i)
  have hcard1 : (Finset.image
      (fun i : Fin (names.length + 1) => qr_probe_name pid qrName (k + i.1))
      Finset.univ).card = names.length + 1 := by
    rw [Finset.card_image_of_injOn ?inj, Finset.card_univ, Fintype.card_fin]
    case inj =>
      intro i _ j _ hij
      have := qr_probe_name_inj hij
      exact Fin.ext (by omega)
  have hcard2 := Finset.card_le_card himg
  have hle := List.toFinset_card_le names
  omega

theorem probeAux_spec (names : List (List Char)) (pid qrName : List Char) :
    ∀ fuel k, (∃ m, k ≤ m ∧ m < k + fuel ∧ qr_probe_name pid qrName m ∉ names) →
      ∃ n, k ≤ n ∧ probeAux names pid qrName fuel k = qr_probe_name pid qrName n ∧
        qr_probe_name pid qrName n ∉ names ∧
        ∀ j, k ≤ j → j < n → qr_probe_name pid qrName j ∈ names := by
  intro fuel
  induction fuel with
  | zero =>
    rintro k ⟨m, h1, h2, _⟩
    omega
  | succ fuel ih =>
    rintro k ⟨m, h1, h2, h3⟩
    by_cases hk : qr_probe_name pid qrName k ∈ names
    · have hmk : m ≠ k := fun he => h3 (he ▸ hk)
      obtain ⟨n, hn1, hn2, hn3, hn4⟩ := ih (k + 1) ⟨m, by omega, by omega, h3⟩
      refine ⟨n, by omega, ?_, hn3, ?_⟩
      · rw [probeAux, if_pos hk]
        exact hn2
      · intro j hj1 hj2
        rcases Nat.eq_or_lt_of_le hj1 with he | hlt
        · exact he ▸ hk
        · exact hn4 j hlt hj2
    · exact ⟨k, le_refl k, by rw [probeAux, if_neg hk], hk, fun j hj1 hj2 => by omega⟩

/-! ### Destination numbering -/

theorem mem_existing_nums {dest : List DirEnt} {x : Nat} :
    x ∈ existing_nums dest ↔
      ∃ e ∈ dest, e.isFile = true ∧ pyIsDigits (pyStem e.name) = true ∧
        parseNat (pyStem e.name) = x := by
  rw [existing_nums, List.mem_filterMap]
  constructor
  · rintro ⟨e, he, hx⟩
    by_cases hc : (e.isFile && pyIsDigits (pyStem e.name)) = true
    · rw [if_pos hc] at hx
      cases hx
      obtain ⟨h1, h2⟩ : e.isFile = true ∧ pyIsDigits (pyStem e.name) = true := by
        simpa using hc
      exact ⟨e, he, h1, h2, rfl⟩
    · rw [if_neg hc] at hx
      cases hx
  · rintro ⟨e, he, h1, h2, h3⟩
    refine ⟨e, he, ?_⟩
    rw [if_pos (show (e.isFile && pyIsDigits (pyStem e.name)) = true by simp [h1, h2]), h3]

theorem existing_nums_lt_seq_start {dest : List DirEnt} {x : Nat}
    (hx : x ∈ existing_nums dest) : x < seq_start dest := by
  rw [seq_start]
  have := mem_le_foldl_max hx 0
  omega

theorem mem_member_dest_names {dest : List DirEnt} {photos : List (List Char)}
    {nm : List Char} :
    nm ∈ member_dest_names dest photos ↔
      ∃ i, ∃ hi : i < photos.length,
        nm = pad3 (seq_start dest + i) ++ pySuffix (photos.get ⟨i, hi⟩) := by
  rw [member_dest_names, List.mem_map]
  constructor
  · rintro ⟨p, hp, he⟩
    obtain ⟨i, hi, hpe⟩ := mem_withIdx_iff.mp hp
    subst hpe
    refine ⟨i, hi, ?_⟩
    rw [← he]
    simp
  · rintro ⟨i, hi, he⟩
    refine ⟨(i, photos.get ⟨i, hi⟩), mem_withIdx_iff.mpr ⟨i, hi, by simp⟩, ?_⟩
    exact he.symm

theorem member_dest_names_not_existing {dest : List DirEnt} {photos : List (List Char)}
    {e : DirEnt} (he : e ∈ dest) (hf : e.isFile = true)
    (hmem : e.name ∈ member_dest_names dest photos) : False := by
  obtain ⟨i, hi, hname⟩ := mem_member_dest_names.mp hmem
  have hstem : pyStem e.name = pad3 (seq_start dest + i) := by
    rw [hname]
    exact pyStem_pad3 _ _
  have hnum : seq_start dest + i ∈ existing_nums dest := by
    rw [mem_existing_nums]
    refine ⟨e, he, hf, ?_, ?_⟩
    · rw [hstem]; exact pyIsDigits_pad3 _
    · rw [hstem]; exact parseNat_pad3 _
  have := existing_nums_lt_seq_start hnum
  omega

theorem member_dest_names_nodup (dest : List DirEnt) (photos : List (List Char)) :
    (member_dest_names dest photos).Nodup := by
  rw [member_dest_names]
  refine List.Pairwise.map _ ?_ (pairwise_withIdx 0 photos)
  intro a b hab he
  have := congrArg pyStem he
  rw [pyStem_pad3, pyStem_pad3] at this
  have := pad3_inj this
  omega

/-! ### Backup folder contents -/

theorem pad3_append_ne_qr (k : Nat) (s pid qrName : List Char) :
    pad3 k ++ s ≠ qr_base_name pid qrName := by
  rw [qr_base_name_cons]
  cases hp : pad3 k with
  | nil => exact absurd hp (pad3_ne_nil k)
  | cons c p' =>
    intro h
    rw [List.cons_append] at h
    have hc : c = 'Q' := (List.cons.injEq _ _ _ _).mp h |>.1
    have : c ∈ pad3 k := by rw [hp]; exact List.mem_cons_self _ _
    have := pad3_all_digit this
    rw [hc] at this
    simp at this

theorem backup_names_nodup (photos : List (List Char)) (qrName pid : List Char) :
    (backup_names photos qrName pid).Nodup := by
  rw [backup_names]
  rw [List.nodup_append]
  refine ⟨?_, List.nodup_singleton _, ?_⟩
  · refine List.Pairwise.map _ ?_ (pairwise_withIdx 0 photos)
    intro a b hab he
    have := congrArg pyStem he
    rw [pyStem_pad3, pyStem_pad3] at this
    have := pad3_inj this
    omega
  · intro nm hnm
    simp only [List.mem_singleton]
    rw [List.mem_map] at hnm
    obtain ⟨p, _, he⟩ := hnm
    rw [← he]
    exact pad3_append_ne_qr _ _ _ _

theorem mem_addFile {d : List (List Char)} {n x : List Char} :
    x ∈ addFile d n ↔ x ∈ d ∨ x = n := by
  rw [addFile]
  by_cases h : n ∈ d
  · rw [if_pos h]
    constructor
    · exact Or.inl
    · rintro (hx | hx)
      · exact hx
      · exact hx ▸ h
  · rw [if_neg h]
    simp

theorem mem_foldl_addFile {l : List (List Char)} :
    ∀ {init x}, x ∈ l.foldl addFile init ↔ x ∈ init ∨ x ∈ l := by
  induction l with
  | nil => simp
  | cons a t ih =>
    intro init x
    rw [List.foldl_cons, ih, mem_addFile]
    simp only [List.mem_cons]
    tauto

theorem length_foldl_addFile {l : List (List Char)} :
    ∀ {init}, l.Nodup → (∀ x ∈ l, x ∉ init) → (l.foldl addFile init).length
      = init.length + l.length := by
  induction l with
  | nil => intro init _ _; rfl
  | cons a t ih =>
    intro init hnd hdisj
    rw [List.nodup_cons] at hnd
    rw [List.foldl_cons, addFile, if_neg (hdisj a (List.mem_cons_self _ _))]
    rw [ih hnd.2 ?side]
    case side =>
      intro x hx hmem
      rcases List.mem_append.mp hmem with hm | hm
      · exact hdisj x (List.mem_cons_of_mem _ hx) hm
      · rw [List.mem_singleton] at hm
        exact hnd.1 (hm ▸ hx)
    simp only [List.length_append, List.length_singleton, List.length_cons, List.length_nil]
    omega

/-! ### Trace-order and pair-timestamp helpers -/

theorem mem_qualifyingPairs_ts {cfg : Config} {watch : List FSEntry} {qrTs : Int}
    {qrRes : Nat} {p : Int × FSEntry} (hp : p ∈ qualifyingPairs cfg watch qrTs qrRes) :
    p.1 = get_image_timestamp p.2 := by
  rw [qualifyingPairs, List.mem_filterMap] at hp
  obtain ⟨e, _, hq⟩ := hp
  by_cases hqe : qualifies cfg qrTs qrRes e = true
  · rw [if_pos hqe] at hq
    cases hq
    rfl
  · rw [if_neg hqe] at hq
    cases hq

theorem backup_mem_of_head_backup {rest l₁ l₂ : List Act}
    (h : Act.runBackup :: rest = l₁ ++ Act.runOrganize :: l₂) : Act.runBackup ∈ l₁ := by
  cases l₁ with
  | nil =>
    rw [List.nil_append] at h
    injection h with h1 _
    cases h1
  | cons a t₁ =>
    rw [List.cons_append] at h
    injection h with h1 _
    rw [← h1]
    exact List.mem_cons_self _ _

theorem organize_not_in_error_trace {l₁ l₂ : List Act} {ctx : String}
    (h : [Act.recError ctx] = l₁ ++ Act.runOrganize :: l₂) : False := by
  have : Act.runOrganize ∈ [Act.recError ctx] := by
    rw [h]
    exact List.mem_append_right _ (List.mem_cons_self _ _)
  simp at this

/-! ## Claim theorems -/

/-- C7: `resolveTimestamp` is total for every input: `get_image_timestamp`
returns the EXIF date when extraction yields one, and on every extraction
failure (open/read exception, absent EXIF data, no date tag, malformed date
value) `get_exif_date` yields `none` and the result falls back to the
file's last-modification time; being a total function into `Int`, it never
raises to its caller. -/
theorem c7_timestamp_total_fallback :
    (∀ en : FSEntry, ∀ t : Int, get_exif_date en.exifo = some t →
      get_image_timestamp en = t) ∧
    (∀ en : FSEntry, get_exif_date en.exifo = none → get_image_timestamp en = en.mtime) ∧
    get_exif_date .openFail = none ∧
    get_exif_date .noData = none ∧
    (∀ items, exifFind items = none → get_exif_date (.data items) = none) ∧
    (∀ items nm, exifFind items = some (nm, .malformed) →
      get_exif_date (.data items) = none) := by
  refine ⟨?_, ?_, rfl, rfl, ?_, ?_⟩
  · intro en t h
    rw [get_image_timestamp, h]
  · intro en h
    rw [get_image_timestamp, h]
  · intro items h
    rw [get_exif_date, h]
  · intro items nm h
    rw [get_exif_date, h]

/-- Witness for C7: a file whose only date tag is malformed falls back to
its modification time, and a file with a valid tag uses the EXIF date. -/
theorem c7_timestamp_total_fallback_witness :
    get_image_timestamp ⟨"a.jpg".toList, true, 1, .data [("DateTime", .malformed)], 42⟩ = 42 ∧
    get_image_timestamp ⟨"b.jpg".toList, true, 2, .data [("DateTimeOriginal", .ok 5)], 42⟩
      = 5 :=
  ⟨c7_timestamp_total_fallback.2.1 _ (by rfl),
   c7_timestamp_total_fallback.1 _ 5 (by rfl)⟩

/-- C8 as stated is false on the code: `parse_patient_id` uses Python's
`str.replace`, which removes every occurrence of `"PATIENT_ID:"`, not only
the leading one, so a payload containing the token again after the prefix
is not returned unchanged. -/
theorem c8_counterexample :
    parse_patient_id "PATIENT_ID:PATIENT_ID:7".toList = "7".toList ∧
    parsePatientIdSpec "PATIENT_ID:PATIENT_ID:7".toList = "PATIENT_ID:7".toList ∧
    parse_patient_id "PATIENT_ID:PATIENT_ID:7".toList
      ≠ parsePatientIdSpec "PATIENT_ID:PATIENT_ID:7".toList := by
  refine ⟨?_, ?_, ?_⟩ <;> decide

/-- C8 (amended): when the payload starts with `"PATIENT_ID:"` and the token
does not occur again in the remainder, the extraction strips the prefix and
returns the remainder whitespace-trimmed; a payload without the prefix is
returned whitespace-trimmed as-is.  (In general the code removes every
occurrence of the token.) -/
theorem c8_prefix_strip (s : List Char) :
    (isPre pidToken s = true → containsTok (s.drop pidToken.length) = false →
      parse_patient_id s = pyStrip (s.drop pidToken.length)) ∧
    (isPre pidToken s = false → parse_patient_id s = pyStrip s) := by
  constructor
  · intro hp hc
    obtain ⟨r, hr⟩ := isPre_iff.mp hp
    subst hr
    rw [List.drop_left] at hc
    rw [parse_patient_id, if_pos hp, removeTok_token_prefix, removeTok,
      removeTokF_of_not_contains hc, List.drop_left]
  · intro hp
    rw [parse_patient_id, if_neg (by rw [hp]; exact Bool.false_ne_true)]

/-- Witness for C8 (amended): a payload with a single leading token is the
trimmed remainder. -/
theorem c8_prefix_strip_witness :
    isPre pidToken "PATIENT_ID: 42 ".toList = true ∧
    containsTok ("PATIENT_ID: 42 ".toList.drop pidToken.length) = false ∧
    parse_patient_id "PATIENT_ID: 42 ".toList
      = pyStrip ("PATIENT_ID: 42 ".toList.drop pidToken.length) :=
  ⟨by decide, by decide,
    (c8_prefix_strip "PATIENT_ID: 42 ".toList).1 (by decide) (by decide)⟩

/-- C1: the collector returns exactly the direct entries of the watch root
that are regular files, eligible (not a reserved/hidden name and of a
supported format), whose resolved path differs from the trigger's, and
whose resolved timestamp lies in `[trigger - window, trigger]` inclusive;
in particular any entry aliasing the trigger's resolved path is never a
member. -/
theorem c1_collector_membership (cfg : Config) (watch : List FSEntry) (qrTs : Int)
    (qrRes : Nat) (f : FSEntry) :
    (f ∈ collect_qualifying_photos cfg watch qrTs qrRes ↔
      f ∈ watch ∧ f.isFile = true ∧ should_skip_path f.name = false ∧
        is_image_file cfg f.name = true ∧ f.resolved ≠ qrRes ∧
        qrTs - 60 * (cfg.windowMinutes : Int) ≤ get_image_timestamp f ∧
        get_image_timestamp f ≤ qrTs) ∧
    (f.resolved = qrRes → f ∉ collect_qualifying_photos cfg watch qrTs qrRes) := by
  constructor
  · rw [mem_collect_iff, qualifies_iff]
  · intro he hmem
    have hq := (mem_collect_iff.mp hmem).2
    rw [qualifies_iff] at hq
    exact hq.2.2.2.1 he

/-- Witness for C1: a photo taken exactly at the window boundary is
collected, while a second textual alias of the trigger itself is not. -/
theorem c1_collector_membership_witness :
    (⟨"a.jpg".toList, true, 1, .noData, -60⟩ : FSEntry) ∈
      collect_qualifying_photos ⟨5, 1, false, [".jpg".toList]⟩
        [⟨"a.jpg".toList, true, 1, .noData, -60⟩, ⟨"trigger2.jpg".toList, true, 9, .noData, 0⟩]
        0 9 ∧
    (⟨"trigger2.jpg".toList, true, 9, .noData, 0⟩ : FSEntry) ∉
      collect_qualifying_photos ⟨5, 1, false, [".jpg".toList]⟩
        [⟨"a.jpg".toList, true, 1, .noData, -60⟩, ⟨"trigger2.jpg".toList, true, 9, .noData, 0⟩]
        0 9 :=
  ⟨(c1_collector_membership _ _ _ _ _).1.mpr (by refine ⟨by decide, rfl, rfl, by decide,
      by decide, by decide, by decide⟩),
   (c1_collector_membership _ _ _ _ _).2 rfl⟩

/-- C6: the collector's output is the qualifying pairs sorted in
non-decreasing order of resolved timestamp; it equals the sort by the
lexicographic key (timestamp, original enumeration index) — i.e. ties are
broken stably by enumeration order and no other field influences
placement — and it is a permutation of the enumerated qualifying list. -/
theorem c6_sorted_stable (cfg : Config) (watch : List FSEntry) (qrTs : Int) (qrRes : Nat) :
    collect_qualifying_photos cfg watch qrTs qrRes
        = (specStableSort (qualifyingPairs cfg watch qrTs qrRes)).map Prod.snd ∧
    (List.insertionSort tsLE (qualifyingPairs cfg watch qrTs qrRes)).Pairwise tsLE ∧
    (List.insertionSort tsLE (qualifyingPairs cfg watch qrTs qrRes)).Perm
      (qualifyingPairs cfg watch qrTs qrRes) ∧
    (collect_qualifying_photos cfg watch qrTs qrRes).Pairwise
      (fun a b => get_image_timestamp a ≤ get_image_timestamp b) := by
  refine ⟨?_, ?_, List.perm_insertionSort tsLE _, ?_⟩
  · rw [collect_qualifying_photos, insertionSort_ts_eq_specStableSort]
  · exact List.sorted_insertionSort tsLE _
  · rw [collect_qualifying_photos, List.pairwise_map]
    refine List.Pairwise.imp_of_mem ?_ (List.sorted_insertionSort tsLE _)
    intro a b ha hb hr
    have ha' := mem_qualifyingPairs_ts ((List.perm_insertionSort tsLE _).mem_iff.mp ha)
    have hb' := mem_qualifyingPairs_ts ((List.perm_insertionSort tsLE _).mem_iff.mp hb)
    rw [← ha', ← hb']
    exact hr

/-- Witness for C6 at a concrete folder with a timestamp tie: the sorted
output and its stable tie-break, evaluated. -/
theorem c6_sorted_stable_witness :
    collect_qualifying_photos ⟨5, 1, false, [".jpg".toList]⟩
        [⟨"b.jpg".toList, true, 1, .noData, -3⟩, ⟨"c.jpg".toList, true, 2, .noData, -9⟩,
         ⟨"d.jpg".toList, true, 3, .noData, -3⟩]
        0 9
      = (specStableSort (qualifyingPairs ⟨5, 1, false, [".jpg".toList]⟩
          [⟨"b.jpg".toList, true, 1, .noData, -3⟩, ⟨"c.jpg".toList, true, 2, .noData, -9⟩,
           ⟨"d.jpg".toList, true, 3, .noData, -3⟩] 0 9)).map Prod.snd ∧
    collect_qualifying_photos ⟨5, 1, false, [".jpg".toList]⟩
        [⟨"b.jpg".toList, true, 1, .noData, -3⟩, ⟨"c.jpg".toList, true, 2, .noData, -9⟩,
         ⟨"d.jpg".toList, true, 3, .noData, -3⟩]
        0 9
      = [⟨"c.jpg".toList, true, 2, .noData, -9⟩, ⟨"b.jpg".toList, true, 1, .noData, -3⟩,
         ⟨"d.jpg".toList, true, 3, .noData, -3⟩] :=
  ⟨(c6_sorted_stable _ _ _ _).1, by decide⟩

/-- C5: destination numbering starts at one more than the maximum
purely-numeric filename stem among the regular files already present (one
when there is none), assigns `pad3`-rendered numbers incremented by one per
member in collected order, and never reuses the name of an existing
regular file, so repeated sessions append instead of overwriting. -/
theorem c5_sequential_numbering (pid : List Char) (photos : List (List Char))
    (qrName : List Char) (dest : List DirEnt) :
    (organize_photos pid photos qrName dest).1
        = (withIdx 0 photos).map (fun p => pad3 (seq_start dest + p.1) ++ pySuffix p.2) ∧
    (∀ x ∈ existing_nums dest, x < seq_start dest) ∧
    (existing_nums dest = [] → seq_start dest = 1) ∧
    (existing_nums dest ≠ [] → seq_start dest - 1 ∈ existing_nums dest) ∧
    (organize_photos pid photos qrName dest).1.Nodup ∧
    (∀ e ∈ dest, e.isFile = true → e.name ∉ (organize_photos pid photos qrName dest).1) := by
  refine ⟨rfl, ?_, ?_, ?_, member_dest_names_nodup dest photos, ?_⟩
  · intro x hx
    exact existing_nums_lt_seq_start hx
  · intro h
    rw [seq_start, h]
    rfl
  · intro h
    rcases foldl_max_mem (existing_nums dest) 0 with hm | hm
    · obtain ⟨x, hx⟩ := List.exists_mem_of_ne_nil _ h
      have hx0 : x ≤ 0 := by
        have := mem_le_foldl_max hx 0
        omega
      have : x = 0 := Nat.le_zero.mp hx0
      subst this
      rw [seq_start]
      simpa [hm] using hx
    · rw [seq_start]
      simpa using hm
  · intro e he hf hmem
    exact member_dest_names_not_existing he hf hmem

/-- Witness for C5 (the spec's Scenario C): a folder with stems 1..3
continues at 004, 005, and the new names collide with nothing present. -/
theorem c5_sequential_numbering_witness :
    seq_start [⟨"001.jpg".toList, true⟩, ⟨"002.jpg".toList, true⟩,
        ⟨"003.jpg".toList, true⟩] - 1
      ∈ existing_nums [⟨"001.jpg".toList, true⟩, ⟨"002.jpg".toList, true⟩,
        ⟨"003.jpg".toList, true⟩] ∧
    (organize_photos ['p'] ["x.jpg".toList, "y.png".toList] "t.jpg".toList
        [⟨"001.jpg".toList, true⟩, ⟨"002.jpg".toList, true⟩, ⟨"003.jpg".toList, true⟩]).1
      = ["004.jpg".toList, "005.png".toList] :=
  ⟨(c5_sequential_numbering ['p'] [] [] _).2.2.2.1 (by decide), by decide⟩

/-- C9: when the preferred `QR_` name is taken in the destination folder
(member moves included), the trigger is moved to `QR_{pid}_{n}{ext}` for
the least `n ≥ 1` whose name is unused — an upward linear probe — and the
chosen name never coincides with an existing one; when the preferred name
is free it is used as-is. -/
theorem c9_qr_collision_probe (pid : List Char) (photos : List (List Char))
    (qrName : List Char) (dest : List DirEnt) :
    (organize_photos pid photos qrName dest).2.1 ∉ dest_after_members dest photos ∧
    (qr_base_name pid qrName ∉ dest_after_members dest photos →
      (organize_photos pid photos qrName dest).2.1 = qr_base_name pid qrName) ∧
    (qr_base_name pid qrName ∈ dest_after_members dest photos →
      ∃ n, 1 ≤ n ∧
        (organize_photos pid photos qrName dest).2.1 = qr_probe_name pid qrName n ∧
        qr_probe_name pid qrName n ∉ dest_after_members dest photos ∧
        ∀ m, 1 ≤ m → m < n → qr_probe_name pid qrName m ∈ dest_after_members dest photos) := by
  by_cases hb : qr_base_name pid qrName ∈ dest_after_members dest photos
  · obtain ⟨m, hm1, hm2, hm3⟩ := exists_probe_free (dest_after_members dest photos) pid qrName 1
    obtain ⟨n, hn1, hn2, hn3, hn4⟩ := probeAux_spec (dest_after_members dest photos) pid qrName
      ((dest_after_members dest photos).length + 1) 1 ⟨m, hm1, by omega, hm3⟩
    have hq : (organize_photos pid photos qrName dest).2.1
        = probeAux (dest_after_members dest photos) pid qrName
          ((dest_after_members dest photos).length + 1) 1 := by
      show qr_dest_name dest photos pid qrName = _
      rw [qr_dest_name, if_pos hb]
    refine ⟨?_, fun hnb => absurd hb hnb, fun _ => ⟨n, hn1, ?_, hn3, hn4⟩⟩
    · rw [hq, hn2]
      exact hn3
    · rw [hq, hn2]
  · have hq : (organize_photos pid photos qrName dest).2.1 = qr_base_name pid qrName := by
      show qr_dest_name dest photos pid qrName = _
      rw [qr_dest_name, if_neg hb]
    refine ⟨by rw [hq]; exact hb, fun _ => hq, fun hmem => absurd hmem hb⟩

/-- Witness for C9: with `QR_p.jpg` and `QR_p_1.jpg` already present the
probe lands on `QR_p_2.jpg`, which is not present. -/
theorem c9_qr_collision_probe_witness :
    qr_base_name ['p'] "t.jpg".toList
      ∈ dest_after_members [⟨"QR_p.jpg".toList, true⟩, ⟨"QR_p_1.jpg".toList, true⟩] [] ∧
    (organize_photos ['p'] [] "t.jpg".toList
        [⟨"QR_p.jpg".toList, true⟩, ⟨"QR_p_1.jpg".toList, true⟩]).2.1
      ∉ dest_after_members [⟨"QR_p.jpg".toList, true⟩, ⟨"QR_p_1.jpg".toList, true⟩] [] ∧
    (organize_photos ['p'] [] "t.jpg".toList
        [⟨"QR_p.jpg".toList, true⟩, ⟨"QR_p_1.jpg".toList, true⟩]).2.1
      = "QR_p_2.jpg".toList :=
  ⟨by decide, (c9_qr_collision_probe ['p'] [] "t.jpg".toList _).1, by decide⟩

/-! ### Branch characterizations of the orchestrator -/

theorem process_qr_trigger_limit {cfg : Config} {s : SessionInput} {stop0 : Bool}
    (h : (collect_qualifying_photos cfg s.watch s.qrTs s.qrResolved).length > cfg.maxPhotos) :
    process_qr_trigger cfg s stop0 = ([.recError maxPhotosCtx], stop0) := by
  simp [process_qr_trigger, h]

theorem process_qr_trigger_backup_err {cfg : Config} {s : SessionInput} {stop0 : Bool}
    {e : PyExn}
    (h : ¬(collect_qualifying_photos cfg s.watch s.qrTs s.qrResolved).length > cfg.maxPhotos)
    (hb : s.backupRes = .error e) :
    process_qr_trigger cfg s stop0
      = ([.runBackup, .recError sessionFailCtx], stop0 || cfg.stopOnError) := by
  simp [process_qr_trigger, h, hb]

theorem process_qr_trigger_organize_err {cfg : Config} {s : SessionInput} {stop0 : Bool}
    {u : Unit} {e : PyExn}
    (h : ¬(collect_qualifying_photos cfg s.watch s.qrTs s.qrResolved).length > cfg.maxPhotos)
    (hb : s.backupRes = .ok u) (ho : s.organizeRes = .error e) :
    process_qr_trigger cfg s stop0
      = ([.runBackup, .runOrganize, .recError sessionFailCtx], stop0 || cfg.stopOnError) := by
  simp [process_qr_trigger, h, hb, ho]

theorem process_qr_trigger_ok {cfg : Config} {s : SessionInput} {stop0 : Bool}
    {u : Unit} {n : Nat}
    (h : ¬(collect_qualifying_photos cfg s.watch s.qrTs s.qrResolved).length > cfg.maxPhotos)
    (hb : s.backupRes = .ok u) (ho : s.organizeRes = .ok n) :
    process_qr_trigger cfg s stop0 = ([.runBackup, .runOrganize, .recDone n], stop0) := by
  simp [process_qr_trigger, h, hb, ho]

/-- C2: when the collected member count exceeds the configured maximum, the
session writes exactly one record — the limit-check error record — invokes
neither the backup nor the relocation step (so no file under the watch
root is created, copied or moved), leaves the stop flag unchanged, and the
processing loop goes on to the remaining images. -/
theorem c2_limit_check (cfg : Config) (s : SessionInput) (rest : List SessionInput)
    (stop0 : Bool) (pid : List Char)
    (hgt : (collect_qualifying_photos cfg s.watch s.qrTs s.qrResolved).length
      > cfg.maxPhotos) :
    (process_qr_trigger cfg s stop0).1 = [Act.recError maxPhotosCtx] ∧
    Act.runBackup ∉ (process_qr_trigger cfg s stop0).1 ∧
    Act.runOrganize ∉ (process_qr_trigger cfg s stop0).1 ∧
    ((process_qr_trigger cfg s stop0).1.filter Act.isRecord).length = 1 ∧
    (process_qr_trigger cfg s stop0).2 = stop0 ∧
    (s.stillExists = true → s.detect = some pid → pid ≠ [] →
      process_images cfg (s :: rest) stop0
        = ([Act.recError maxPhotosCtx] ++ (process_images cfg rest stop0).1,
           (process_images cfg rest stop0).2)) := by
  have hp := @process_qr_trigger_limit cfg s stop0 hgt
  refine ⟨by rw [hp], by rw [hp]; simp, by rw [hp]; simp, by rw [hp]; simp [Act.isRecord],
    by rw [hp], ?_⟩
  intro hse hdet hpid
  simp [process_images, hse, hdet, hpid, hp]

/-- Witness for C2: one qualifying photo against a limit of zero aborts
with the single limit error record. -/
theorem c2_limit_check_witness :
    (collect_qualifying_photos ⟨0, 0, false, [".jpg".toList]⟩
        [⟨"a.jpg".toList, true, 1, .noData, 0⟩] 0 2).length > 0 ∧
    (process_qr_trigger ⟨0, 0, false, [".jpg".toList]⟩
        ⟨true, some ['p'], [⟨"a.jpg".toList, true, 1, .noData, 0⟩], 0, 2, .ok (), .ok 1⟩
        false).1
      = [Act.recError maxPhotosCtx] :=
  ⟨by decide,
    (c2_limit_check ⟨0, 0, false, [".jpg".toList]⟩
      ⟨true, some ['p'], [⟨"a.jpg".toList, true, 1, .noData, 0⟩], 0, 2, .ok (), .ok 1⟩
      [] false ['p'] (by decide)).1⟩

/-- C3: for every combination of backup/relocation outcomes (so in
particular when either raises), the session attempt writes exactly one
terminal record; a `DONE` record is written iff the limit check passes and
both steps succeed, an `ERROR` record is written iff it does not, and
never both.  The orchestrator is a total function of the step outcomes:
no exception propagates to its caller. -/
theorem c3_one_terminal_record (cfg : Config) (s : SessionInput) (stop0 : Bool) :
    ((process_qr_trigger cfg s stop0).1.filter Act.isRecord).length = 1 ∧
    ((∃ n, Act.recDone n ∈ (process_qr_trigger cfg s stop0).1) ↔
      ((collect_qualifying_photos cfg s.watch s.qrTs s.qrResolved).length ≤ cfg.maxPhotos ∧
        s.backupRes.isOk = true ∧ s.organizeRes.isOk = true)) ∧
    ((∃ c, Act.recError c ∈ (process_qr_trigger cfg s stop0).1) ↔
      ¬((collect_qualifying_photos cfg s.watch s.qrTs s.qrResolved).length ≤ cfg.maxPhotos ∧
        s.backupRes.isOk = true ∧ s.organizeRes.isOk = true)) ∧
    ¬((∃ n, Act.recDone n ∈ (process_qr_trigger cfg s stop0).1) ∧
      (∃ c, Act.recError c ∈ (process_qr_trigger cfg s stop0).1)) := by
  by_cases hq : (collect_qualifying_photos cfg s.watch s.qrTs s.qrResolved).length
      > cfg.maxPhotos
  · rw [process_qr_trigger_limit hq]
    refine ⟨by simp [Act.isRecord], ?_, ?_, ?_⟩
    · simp only [List.mem_singleton]
      constructor
      · rintro ⟨n, hn⟩; cases hn
      · rintro ⟨h1, _⟩; omega
    · simp only [List.mem_singleton]
      constructor
      · rintro _ ⟨h1, _⟩; omega
      · intro _; exact ⟨maxPhotosCtx, rfl⟩
    · rintro ⟨⟨n, hn⟩, _⟩
      simp at hn
  · cases hb : s.backupRes with
    | error e =>
      rw [process_qr_trigger_backup_err hq hb]
      refine ⟨by simp [Act.isRecord], ?_, ?_, ?_⟩
      · constructor
        · rintro ⟨n, hn⟩; simp at hn
        · rintro ⟨_, h2, _⟩; exact Bool.noConfusion h2
      · constructor
        · rintro _ ⟨_, h2, _⟩; exact Bool.noConfusion h2
        · intro _; exact ⟨sessionFailCtx, by simp⟩
      · rintro ⟨⟨n, hn⟩, _⟩
        simp at hn
    | ok u =>
      cases ho : s.organizeRes with
      | error e =>
        rw [process_qr_trigger_organize_err hq hb ho]
        refine ⟨by simp [Act.isRecord], ?_, ?_, ?_⟩
        · constructor
          · rintro ⟨n, hn⟩; simp at hn
          · rintro ⟨_, _, h3⟩; exact Bool.noConfusion h3
        · constructor
          · rintro _ ⟨_, _, h3⟩; exact Bool.noConfusion h3
          · intro _; exact ⟨sessionFailCtx, by simp⟩
        · rintro ⟨⟨n, hn⟩, _⟩
          simp at hn
      | ok n =>
        rw [process_qr_trigger_ok hq hb ho]
        refine ⟨by simp [Act.isRecord], ?_, ?_, ?_⟩
        · constructor
          · intro _; exact ⟨by omega, rfl, rfl⟩
          · intro _; exact ⟨n, by simp⟩
        · constructor
          · rintro ⟨c, hc⟩; simp at hc
          · intro hcon; exact absurd ⟨by omega, rfl, rfl⟩ hcon
        · rintro ⟨_, ⟨c, hc⟩⟩
          simp at hc

/-- Witness for C3: a backup failure yields exactly one record, and it is
an error record. -/
theorem c3_one_terminal_record_witness :
    ((process_qr_trigger ⟨5, 0, false, []⟩
        ⟨true, some ['p'], [], 0, 2, .error ⟨"OSError", "disk full"⟩, .ok 0⟩ false).1.filter
      Act.isRecord).length = 1 ∧
    (∃ c, Act.recError c ∈ (process_qr_trigger ⟨5, 0, false, []⟩
        ⟨true, some ['p'], [], 0, 2, .error ⟨"OSError", "disk full"⟩, .ok 0⟩ false).1) :=
  ⟨(c3_one_terminal_record ⟨5, 0, false, []⟩
      ⟨true, some ['p'], [], 0, 2, .error ⟨"OSError", "disk full"⟩, .ok 0⟩ false).1,
   (c3_one_terminal_record ⟨5, 0, false, []⟩
      ⟨true, some ['p'], [], 0, 2, .error ⟨"OSError", "disk full"⟩, .ok 0⟩ false).2.2.1.mpr
     (by rintro ⟨_, h2, _⟩; cases h2)⟩

/-- C4 as stated is false on the code: with `stop_on_error` configured, a
session aborted by the limit check writes its `ERROR` record but returns
before the exception handler, so no halt is requested (`stop_requested`
stays `false`). -/
theorem c4_counterexample :
    (⟨0, 0, true, [".jpg".toList]⟩ : Config).stopOnError = true ∧
    (process_qr_trigger ⟨0, 0, true, [".jpg".toList]⟩
        ⟨true, some ['p'], [⟨"a.jpg".toList, true, 1, .noData, 0⟩], 0, 2, .ok (), .ok 1⟩
        false).1
      = [Act.recError maxPhotosCtx] ∧
    (process_qr_trigger ⟨0, 0, true, [".jpg".toList]⟩
        ⟨true, some ['p'], [⟨"a.jpg".toList, true, 1, .noData, 0⟩], 0, 2, .ok (), .ok 1⟩
        false).2
      = false := by
  refine ⟨rfl, ?_, ?_⟩ <;> decide

/-- C4 (amended): the stop flag is raised exactly when it was already set
or when `stop_on_error` is configured and the session reached the
exception handler — i.e. the limit check passed and the backup or the
relocation step failed.  A limit-check `ERROR` never requests a halt. -/
theorem c4_stop_on_error (cfg : Config) (s : SessionInput) (stop0 : Bool) :
    (process_qr_trigger cfg s stop0).2 = true ↔
      (stop0 = true ∨ (cfg.stopOnError = true ∧
        (collect_qualifying_photos cfg s.watch s.qrTs s.qrResolved).length ≤ cfg.maxPhotos ∧
        (s.backupRes.isOk = false ∨ s.organizeRes.isOk = false))) := by
  by_cases hq : (collect_qualifying_photos cfg s.watch s.qrTs s.qrResolved).length
      > cfg.maxPhotos
  · rw [process_qr_trigger_limit hq]
    constructor
    · intro h; exact Or.inl h
    · rintro (h | ⟨_, h2, _⟩)
      · exact h
      · omega
  · cases hb : s.backupRes with
    | error e =>
      rw [process_qr_trigger_backup_err hq hb]
      simp only [Bool.or_eq_true]
      constructor
      · rintro (h | h)
        · exact Or.inl h
        · exact Or.inr ⟨h, by omega, Or.inl rfl⟩
      · rintro (h | ⟨h1, _, _⟩)
        · exact Or.inl h
        · exact Or.inr h1
    | ok u =>
      cases ho : s.organizeRes with
      | error e =>
        rw [process_qr_trigger_organize_err hq hb ho]
        simp only [Bool.or_eq_true]
        constructor
        · rintro (h | h)
          · exact Or.inl h
          · exact Or.inr ⟨h, by omega, Or.inr rfl⟩
        · rintro (h | ⟨h1, _, _⟩)
          · exact Or.inl h
          · exact Or.inr h1
      | ok n =>
        rw [process_qr_trigger_ok hq hb ho]
        constructor
        · intro h; exact Or.inl h
        · rintro (h | ⟨_, _, (h3 | h3)⟩)
          · exact h
          · exact Bool.noConfusion h3
          · exact Bool.noConfusion h3

/-- Witness for C4 (amended): with `stop_on_error` set, a relocation
failure inside the limit requests the halt. -/
theorem c4_stop_on_error_witness :
    (process_qr_trigger ⟨5, 0, true, []⟩
        ⟨true, some ['p'], [], 0, 2, .ok (), .error ⟨"OSError", "move failed"⟩⟩ false).2
      = true :=
  (c4_stop_on_error ⟨5, 0, true, []⟩
      ⟨true, some ['p'], [], 0, 2, .ok (), .error ⟨"OSError", "move failed"⟩⟩ false).mpr
    (Or.inr ⟨rfl, by decide, Or.inr rfl⟩)

/-- C10 as stated is false on the code: `_backup/{session_id}/` is created
with `exist_ok=True`, so a stale file left by an earlier attempt with the
same session id survives, and the folder then holds more than
`memberCount + 1` files after a successful backup. -/
theorem c10_counterexample :
    (create_backup ["999.png".toList] [] "t.jpg".toList ['p']).length = 2 ∧
    (create_backup ["999.png".toList] [] "t.jpg".toList ['p']).length
      ≠ ([] : List (List Char)).length + 1 := by
  refine ⟨?_, ?_⟩ <;> decide

/-- C10 (amended): the backup step precedes any relocation in every session
trace, and when the session's backup folder starts empty it ends holding
exactly `memberCount + 1` files — the members under 1-based zero-padded
3-digit names preserving their extensions, and the trigger photo, copied
last, under `QR_{subjectId}{ext}`. -/
theorem c10_backup_contents (photos : List (List Char)) (qrName pid : List Char)
    (cfg : Config) (s : SessionInput) (stop0 : Bool) :
    (create_backup [] photos qrName pid).length = photos.length + 1 ∧
    (∀ nm, nm ∈ create_backup [] photos qrName pid ↔ nm ∈ backup_names photos qrName pid) ∧
    backup_names photos qrName pid
        = ((withIdx 0 photos).map fun p => pad3 (p.1 + 1) ++ pySuffix p.2)
          ++ [qr_base_name pid qrName] ∧
    (backup_names photos qrName pid).getLast? = some (qr_base_name pid qrName) ∧
    (backup_names photos qrName pid).Nodup ∧
    (∀ l₁ l₂, (process_qr_trigger cfg s stop0).1 = l₁ ++ Act.runOrganize :: l₂ →
      Act.runBackup ∈ l₁) := by
  refine ⟨?_, ?_, rfl, ?_, backup_names_nodup photos qrName pid, ?_⟩
  · rw [create_backup,
      length_foldl_addFile (backup_names_nodup photos qrName pid)
        (fun x _ => List.not_mem_nil x)]
    rw [backup_names]
    simp [withIdx_length]
  · intro nm
    rw [create_backup, mem_foldl_addFile]
    simp
  · rw [backup_names]
    exact List.getLast?_concat _
  · intro l₁ l₂ h
    by_cases hq : (collect_qualifying_photos cfg s.watch s.qrTs s.qrResolved).length
        > cfg.maxPhotos
    · rw [process_qr_trigger_limit hq] at h
      exact (organize_not_in_error_trace h).elim
    · cases hb : s.backupRes with
      | error e =>
        rw [process_qr_trigger_backup_err hq hb] at h
        exact backup_mem_of_head_backup h
      | ok u =>
        cases ho : s.organizeRes with
        | error e =>
          rw [process_qr_trigger_organize_err hq hb ho] at h
          exact backup_mem_of_head_backup h
        | ok n =>
          rw [process_qr_trigger_ok hq hb ho] at h
          exact backup_mem_of_head_backup h

/-- Witness for C10 (amended): two members yield a fresh backup folder of
three files ending with the `QR_` copy, and in a successful concrete trace
the backup action precedes the relocation action. -/
theorem c10_backup_contents_witness :
    (create_backup [] ["x.jpg".toList, "y.png".toList] "t.jpg".toList ['p']).length = 3 ∧
    (create_backup [] ["x.jpg".toList, "y.png".toList] "t.jpg".toList ['p'])
      = ["001.jpg".toList, "002.png".toList, "QR_p.jpg".toList] ∧
    Act.runBackup ∈ [Act.runBackup] :=
  ⟨(c10_backup_contents ["x.jpg".toList, "y.png".toList] "t.jpg".toList ['p']
      ⟨5, 0, false, []⟩ ⟨true, some ['p'], [], 0, 2, .ok (), .ok 1⟩ false).1,
   by decide,
   (c10_backup_contents ["x.jpg".toList, "y.png".toList] "t.jpg".toList ['p']
      ⟨5, 0, false, []⟩ ⟨true, some ['p'], [], 0, 2, .ok (), .ok 1⟩ false).2.2.2.2.2
     [Act.runBackup] [Act.recDone 1] (by decide)⟩

end QrOrg
